import Mathlib

/-!
Verification of the render-mode coordination layer of a two-phase
partial-prerendering system: the content cache keyed by logical name plus
JSON-serialized arguments, the cache-completion signal with event-loop
debouncing, the async render-context store with dynamic-access tracking,
and the request-time static fast path.  All definitions are shallow
embeddings of the JavaScript sources in src/.
-/

namespace PPR

/-- The open-brace character of JSON object serialization, written numerically. -/
def obrace : Char := Char.ofNat 123

/-- The close-brace character of JSON object serialization, written numerically. -/
def cbrace : Char := Char.ofNat 125

mutual

/-- JSON values: the payloads JSON.stringify serializes when cache keys are derived. -/
inductive JsonValue : Type where
  | jnull : JsonValue
  | jbool : Bool → JsonValue
  | jnum : Int → JsonValue
  | jstr : String → JsonValue
  | jarr : JsonList → JsonValue
  | jobj : JsonFields → JsonValue

/-- A list of JSON values (the argument list of a cached call). -/
inductive JsonList : Type where
  | nil : JsonList
  | cons : JsonValue → JsonList → JsonList

/-- Ordered fields of a JSON object (the props of a cached component). -/
inductive JsonFields : Type where
  | fnil : JsonFields
  | fcons : String → JsonValue → JsonFields → JsonFields

end

/-- Decimal digit characters. -/
def digitChar : Nat → Char
  | 0 => '0'
  | 1 => '1'
  | 2 => '2'
  | 3 => '3'
  | 4 => '4'
  | 5 => '5'
  | 6 => '6'
  | 7 => '7'
  | 8 => '8'
  | _ => '9'

/-- Decimal digits of a natural number, most significant first. -/
def natChars (n : Nat) : List Char :=
  if _h : n < 10 then [digitChar n]
  else natChars (n / 10) ++ [digitChar (n % 10)]
termination_by n
decreasing_by exact Nat.div_lt_self (by omega) (by omega)

/-- Decimal representation of an integer, as JSON.stringify prints it. -/
def intChars (i : Int) : List Char :=
  if i < 0 then '-' :: natChars i.natAbs else natChars i.toNat

/-- JSON string escaping of one character, as JSON.stringify performs it. -/
def escapeChar (c : Char) : List Char :=
  if c = '"' then ['\\', '"']
  else if c = '\\' then ['\\', '\\']
  else if c = '\n' then ['\\', 'n']
  else if c = '\t' then ['\\', 't']
  else if c = '\r' then ['\\', 'r']
  else [c]

/-- JSON string escaping of a character sequence. -/
def escBody : List Char → List Char
  | [] => []
  | c :: r => escapeChar c ++ escBody r

/-- A serialized JSON string literal: quote, escaped body, quote. -/
def strTok (s : List Char) : List Char := '"' :: escBody s ++ ['"']

mutual

/-- JSON.stringify on a value, producing the characters of its serialization. -/
def strV : JsonValue → List Char
  | .jnull => ['n', 'u', 'l', 'l']
  | .jbool true => ['t', 'r', 'u', 'e']
  | .jbool false => ['f', 'a', 'l', 's', 'e']
  | .jnum i => intChars i
  | .jstr s => strTok s.data
  | .jarr xs => '[' :: strL xs ++ [']']
  | .jobj fs => obrace :: strF fs ++ [cbrace]

/-- Comma-separated serializations of array elements. -/
def strL : JsonList → List Char
  | .nil => []
  | .cons v .nil => strV v
  | .cons v (.cons w tl) => strV v ++ ',' :: strL (.cons w tl)

/-- Comma-separated serializations of object fields. -/
def strF : JsonFields → List Char
  | .fnil => []
  | .fcons k v .fnil => strTok k.data ++ ':' :: strV v
  | .fcons k v (.fcons k2 v2 tl) =>
      strTok k.data ++ ':' :: strV v ++ ',' :: strF (.fcons k2 v2 tl)

end

/-- Cache key derivation of the cached() wrapper: name, colon, serialized args. -/
def generateCacheKey (name : List Char) (args : JsonList) : List Char :=
  name ++ ':' :: strV (.jarr args)

/-- Cache key derivation of cachedComponent(): component prefix, name, colon, serialized props. -/
def componentCacheKey (name : List Char) (props : JsonFields) : List Char :=
  "component:".data ++ name ++ ':' :: strV (.jobj props)

/-- One recorded dynamic access: the human-readable expression and a captured debug stack. -/
structure AccessEvent : Type where
  expression : String
  stack : String
deriving DecidableEq

/-- The live HTTP request data visible to dynamic APIs at request time. -/
structure HttpRequest : Type where
  headers : List (String × String)
deriving DecidableEq

/-- The render-mode store held in async-local storage: prerender or request. -/
inductive Store : Type where
  | prerender (dynamicAccesses : List AccessEvent) (accessedDynamicData : Bool)
  | request (req : HttpRequest)
deriving DecidableEq

/-- createPrerenderStore(): fresh prerender store with no accesses recorded. -/
def createPrerenderStore : Store := .prerender [] false

/-- createRequestStore(req): request store wrapping the live request. -/
def createRequestStore (req : HttpRequest) : Store := .request req

/-- Failures raised by the context and dynamic-input APIs. -/
inductive ApiError : Type where
  | contextMissing (api : String)
  | postponed (reason : String)
deriving DecidableEq

/-- getStore(): returns the ambient store, failing with a context-missing error outside any scope. -/
def getStoreM (st : Option Store) : Except ApiError Store :=
  match st with
  | none => .error (.contextMissing "getStore()")
  | some s => .ok s

/-- trackDynamicAccess(expression): appends one access event and sets the flag under a
prerender store; leaves a request store, or a missing store, entirely unchanged. -/
def trackDynamicAccess (expression stack : String) (st : Option Store) : Option Store :=
  match st with
  | some (.prerender l _) => some (.prerender (l ++ [⟨expression, stack⟩]) true)
  | other => other

/-- The reason string built by postpone(route, expression). -/
def postponeReason (route expression : String) : String :=
  "Route " ++ route ++ " needs to bail out of prerendering at this point because it used "
    ++ expression ++ "."

/-- Property assignment on a JavaScript object modelled as an association list:
an existing key is overwritten in place, a new key is appended. -/
def jsObjSet (k v : String) : List (String × String) → List (String × String)
  | [] => [(k, v)]
  | (k2, v2) :: r => if k2 = k then (k, v) :: r else (k2, v2) :: jsObjSet k v r

/-- Lookup in a string-keyed association list, first match wins. -/
def lookupStr (k : String) : List (String × String) → Option String
  | [] => none
  | (k2, v) :: r => if k2 = k then some v else lookupStr k r

/-- The cookie-header parser of cookies(): split on semicolons, trim, split each
piece on the first equals sign, skip empty names, later duplicates overwrite. -/
def parseCookieHeader (header : String) : List (String × String) :=
  (header.splitOn ";").foldl
    (fun acc c =>
      let t := c.trim
      match t.splitOn "=" with
      | [] => acc
      | nm :: rest => if nm = "" then acc else jsObjSet nm (String.intercalate "=" rest) acc)
    []

/-- cookies(): fails outside a context; under prerender it records the access and
postpones; under request it parses the cookie header of the live request. -/
def cookiesApi (stk : String) (st : Option Store) :
    Except ApiError (List (String × String)) × Option Store :=
  match st with
  | none => (.error (.contextMissing "cookies()"), none)
  | some (.prerender l f) =>
      (.error (.postponed (postponeReason "/demo" "cookies()")),
       trackDynamicAccess "cookies()" stk (some (.prerender l f)))
  | some (.request req) =>
      ((.ok (parseCookieHeader ((lookupStr "cookie" req.headers).getD ""))),
       some (.request req))

/-- headers(): fails outside a context; postpones under prerender; returns the
live header mapping under request. -/
def headersApi (stk : String) (st : Option Store) :
    Except ApiError (List (String × String)) × Option Store :=
  match st with
  | none => (.error (.contextMissing "headers()"), none)
  | some (.prerender l f) =>
      (.error (.postponed (postponeReason "/demo" "headers()")),
       trackDynamicAccess "headers()" stk (some (.prerender l f)))
  | some (.request req) => (.ok req.headers, some (.request req))

/-- getCurrentTime(): fails outside a context; postpones under prerender; returns
the current wall-clock string, supplied by the environment, under request. -/
def getCurrentTimeApi (now stk : String) (st : Option Store) :
    Except ApiError String × Option Store :=
  match st with
  | none => (.error (.contextMissing "getCurrentTime()"), none)
  | some (.prerender l f) =>
      (.error (.postponed (postponeReason "/demo" "getCurrentTime()")),
       trackDynamicAccess "getCurrentTime()" stk (some (.prerender l f)))
  | some (.request req) => (.ok now, some (.request req))

/-- connection(): fails outside a context; postpones under prerender; resolves to
undefined under request. -/
def connectionApi (stk : String) (st : Option Store) : Except ApiError Unit × Option Store :=
  match st with
  | none => (.error (.contextMissing "connection()"), none)
  | some (.prerender l f) =>
      (.error (.postponed (postponeReason "/demo" "connection()")),
       trackDynamicAccess "connection()" stk (some (.prerender l f)))
  | some (.request req) => (.ok (), some (.request req))

/-- State of the cache-completion signal: the pending-read count, the waiters
registered by cacheReady, the has-any-read-started flag, the number of scheduled
debounce checks not yet fired, and the ghost histories of waiters that were
resolved or rejected. -/
structure SigSt : Type where
  pending : Int
  resolvers : List Nat
  hasStartedReading : Bool
  scheduled : Nat
  resolved : List Nat
  rejected : List Nat
deriving DecidableEq

/-- The signal state at module load and after a reset: count zero, no waiters. -/
def initSig : SigSt := ⟨0, [], false, 0, [], []⟩

/-- beginCacheRead(): increment the pending count and mark that reading started. -/
def beginCacheRead (s : SigSt) : SigSt :=
  { s with pending := s.pending + 1, hasStartedReading := true }

/-- noMorePendingCaches(): schedule one debounce check after a full event-loop trip. -/
def noMorePendingCaches (s : SigSt) : SigSt :=
  { s with scheduled := s.scheduled + 1 }

/-- endCacheRead(): decrement the pending count; when it reaches zero and reading
had started, schedule a debounce check. -/
def endCacheRead (s : SigSt) : SigSt :=
  let s2 := { s with pending := s.pending - 1 }
  if s2.pending = 0 ∧ s.hasStartedReading = true then noMorePendingCaches s2 else s2

/-- cacheReady(): register a waiter; when the count is already zero, schedule a
debounce check so the waiter can still resolve after a grace trip. -/
def cacheReadyCall (w : Nat) (s : SigSt) : SigSt :=
  let s2 := { s with resolvers := s.resolvers ++ [w] }
  if s2.pending = 0 then noMorePendingCaches s2 else s2

/-- A scheduled debounce check firing: consume one scheduled check; when the count
is still zero, resolve every registered waiter; otherwise do nothing. -/
def fireDebounce (s : SigSt) : SigSt :=
  if s.scheduled = 0 then s
  else
    let s2 := { s with scheduled := s.scheduled - 1 }
    if s2.pending = 0 then
      { s2 with resolved := s2.resolved ++ s2.resolvers, resolvers := [] }
    else s2

/-- resetCacheSignal(): zero the count, discard the registered waiters without
resolving them, and clear the started flag. -/
def resetCacheSignal (s : SigSt) : SigSt :=
  { s with pending := 0, resolvers := [], hasStartedReading := false }

/-- Observable events of the cache-completion signal within and between passes. -/
inductive SigEv : Type where
  | beginRead : SigEv
  | endRead : SigEv
  | ready (w : Nat) : SigEv
  | fire : SigEv
  | reset : SigEv
deriving DecidableEq

/-- One event applied to the signal state. -/
def sigStep (s : SigSt) : SigEv → SigSt
  | .beginRead => beginCacheRead s
  | .endRead => endCacheRead s
  | .ready w => cacheReadyCall w s
  | .fire => fireDebounce s
  | .reset => resetCacheSignal s

/-- Run a sequence of signal events from a state. -/
def runSig (s : SigSt) (tr : List SigEv) : SigSt := tr.foldl sigStep s

/-- Lookup in the content cache, keyed by serialized cache-key characters. -/
def lookupStore {V : Type} (k : List Char) : List (List Char × V) → Option V
  | [] => none
  | (k2, v) :: r => if k2 = k then some v else lookupStore k r

/-- Map.set on the content cache: overwrite an existing key in place, else append. -/
def setStore {V : Type} (k : List Char) (v : V) : List (List Char × V) → List (List Char × V)
  | [] => [(k, v)]
  | (k2, v2) :: r => if k2 = k then (k, v) :: r else (k2, v2) :: setStore k v r

/-- The cache-module state: the content cache, the completion signal, and the
current render phase string. -/
structure CacheSt (V : Type) : Type where
  store : List (List Char × V)
  sig : SigSt
  currentPhase : String

/-- isFinalRender(): the current phase is the final (cache-reading) phase. -/
def isFinalRender {V : Type} (st : CacheSt V) : Bool := st.currentPhase = "final"

/-- Observable events of one invocation of the cached() wrapper. -/
inductive CacheEv : Type where
  | hitLog : CacheEv
  | warnedFinalMiss : CacheEv
  | began : CacheEv
  | producerCalled : CacheEv
  | ended : CacheEv
deriving DecidableEq

/-- One invocation of the cached(name, fn) wrapper on args: derive the key; on a
hit return the cached value with no signal interaction; on a miss warn when in
the final render, begin-count, run the producer, store the result only on
success, end-count in either case, and propagate the outcome. -/
def cachedCall {V E : Type} (name : List Char) (fn : JsonList → Except E V) (args : JsonList)
    (st : CacheSt V) : Except E V × CacheSt V × List CacheEv :=
  let key := generateCacheKey name args
  match lookupStore key st.store with
  | some v => (.ok v, st, [.hitLog])
  | none =>
    let warn : List CacheEv := if isFinalRender st then [.warnedFinalMiss] else []
    let st1 : CacheSt V := { st with sig := beginCacheRead st.sig }
    match fn args with
    | .ok r =>
        (.ok r,
         { st1 with store := setStore key r st1.store, sig := endCacheRead st1.sig },
         warn ++ [.began, .producerCalled, .ended])
    | .error e =>
        (.error e,
         { st1 with sig := endCacheRead st1.sig },
         warn ++ [.began, .producerCalled, .ended])

/-- Build metadata persisted for the server. -/
structure Metadata : Type where
  hasDynamicContent : Bool
  hasPostponedState : Bool
deriving DecidableEq

/-- What the root request handler does with a request. -/
inductive ServerAction (P : Type) : Type where
  | serveStatic (body : String) : ServerAction P
  | resumeRender (store : Store) (state : P) : ServerAction P
  | fullRender (store : Store) : ServerAction P

/-- Loading of the postponed state: only attempted when metadata exists and
declares a postponed state; otherwise absent. -/
def loadPostponedState {P : Type} (metadata : Option Metadata) (file : Option P) : Option P :=
  match metadata with
  | some m => if m.hasPostponedState then file else none
  | none => none

/-- The root request handler: serve the persisted shell verbatim when metadata
exists and reports no dynamic content; otherwise resume from the postponed state
when present, else fall back to a full render, both under a request store. -/
def handleRoot {P : Type} (metadata : Option Metadata) (file : Option P)
    (shellHtml : String) (req : HttpRequest) : ServerAction P :=
  let postponed := loadPostponedState metadata file
  if (match metadata with | some m => !m.hasDynamicContent | none => false) then
    .serveStatic shellHtml
  else
    match postponed with
    | some ps => .resumeRender (createRequestStore req) ps
    | none => .fullRender (createRequestStore req)

/-- Whether the handler invokes the rendering engine for this action. -/
def invokesRenderEngine {P : Type} : ServerAction P → Bool
  | .serveStatic _ => false
  | .resumeRender _ _ => true
  | .fullRender _ => true

/-- Whether the handler enters a render context for this action. -/
def entersRenderContext {P : Type} : ServerAction P → Bool
  | .serveStatic _ => false
  | .resumeRender _ _ => true
  | .fullRender _ => true

/-- The build script metadata flag: the final store recorded at least one dynamic access. -/
def buildHasDynamicContent (st : Store) : Bool :=
  match st with
  | .prerender l _ => decide (0 < l.length)
  | .request _ => false

/-- Invariant of a prerender store: the accessed flag is set exactly when the
access list is non-empty; request stores carry no tracker. -/
def StoreInv : Store → Prop
  | .prerender l f => f = true ↔ l ≠ []
  | .request _ => True

/-- State of a left-to-right scanner over serialized JSON characters: whether the
position is inside a string literal, whether the previous in-string character was
an unconsumed escape, and the bracket nesting depth outside strings. -/
structure ScanSt : Type where
  inStr : Bool
  esc : Bool
  depth : Int
deriving DecidableEq

/-- The scanner state at the start of a serialization. -/
def cleanSt : ScanSt := ⟨false, false, 0⟩

/-- Opening bracket characters of JSON serialization. -/
def isOpenB (c : Char) : Bool := c = '[' || c = obrace

/-- Closing bracket characters of JSON serialization. -/
def isCloseB (c : Char) : Bool := c = ']' || c = cbrace

/-- One character of scanning: track string literals, escapes, and depth. -/
def scanStep (s : ScanSt) (c : Char) : ScanSt :=
  if s.inStr then
    if s.esc then ⟨true, false, s.depth⟩
    else if c = '\\' then ⟨true, true, s.depth⟩
    else if c = '"' then ⟨false, false, s.depth⟩
    else ⟨true, false, s.depth⟩
  else
    if c = '"' then ⟨true, false, s.depth⟩
    else if isOpenB c then ⟨false, false, s.depth + 1⟩
    else if isCloseB c then ⟨false, false, s.depth - 1⟩
    else ⟨false, false, s.depth⟩

/-- Scan a character sequence from a state. -/
def scanL (s : ScanSt) (cs : List Char) : ScanSt := cs.foldl scanStep s

/-- A balanced serialization fragment: scanning it from any outside-string state
returns that state. -/
def Bal (s : List Char) : Prop :=
  ∀ st : ScanSt, st.inStr = false → st.esc = false → scanL st s = st

/-- A fragment with no backslash at any position its own scan reads outside a
string literal. -/
def NoBS (s : List Char) : Prop :=
  ∀ t c r, s = t ++ c :: r → ∀ d : Int, (scanL ⟨false, false, d⟩ t).inStr = false → c ≠ '\\'

/-- A fragment whose scan never drops the depth below its starting depth. -/
def DeepGe (s : List Char) : Prop :=
  ∀ t r, s = t ++ r → ∀ d : Int, d ≤ (scanL ⟨false, false, d⟩ t).depth

/-- The three scan properties every JSON.stringify output fragment enjoys. -/
structure STok (s : List Char) : Prop where
  bal : Bal s
  nobs : NoBS s
  deep : DeepGe s

/-- A character that the scanner treats as inert: not a quote, escape or bracket. -/
def NeutralC (c : Char) : Prop :=
  c ≠ '"' ∧ c ≠ '\\' ∧ isOpenB c = false ∧ isCloseB c = false

instance (c : Char) : Decidable (NeutralC c) := by
  unfold NeutralC
  infer_instance

/-- Two scans of the same characters in opposite string phases, with the
in-string side never mid-escape. -/
def OppPhase (a b : ScanSt) : Prop :=
  (a.inStr = true ∧ a.esc = false ∧ b.inStr = false) ∨
  (a.inStr = false ∧ b.inStr = true ∧ b.esc = false)

/-! ## Theorems -/

/-- C6: trackDynamicAccess under a prerender store appends exactly one access
event carrying the given expression and sets the accessed flag to true; under a
request store it leaves the tracker state entirely unchanged. -/
theorem trackDynamicAccess_spec (expression stack : String) :
    (∀ (l : List AccessEvent) (f : Bool),
      trackDynamicAccess expression stack (some (.prerender l f)) =
        some (.prerender (l ++ [⟨expression, stack⟩]) true)) ∧
    (∀ req : HttpRequest,
      trackDynamicAccess expression stack (some (.request req)) = some (.request req)) := by
  exact ⟨fun l f => rfl, fun req => rfl⟩

/-- C7: outside any scoped context, getStore fails with a context-missing error
rather than returning a store, and the dynamic-input accessors cookies, headers,
getCurrentTime and connection likewise fail with a context-missing error. -/
theorem contextMissing_spec (now stk : String) :
    getStoreM none = .error (.contextMissing "getStore()") ∧
    (cookiesApi stk none).1 = .error (.contextMissing "cookies()") ∧
    (headersApi stk none).1 = .error (.contextMissing "headers()") ∧
    (getCurrentTimeApi now stk none).1 = .error (.contextMissing "getCurrentTime()") ∧
    (connectionApi stk none).1 = .error (.contextMissing "connection()") := by
  exact ⟨rfl, rfl, rfl, rfl, rfl⟩

/-- C8: when the loaded metadata reports no dynamic content, the root handler
returns the persisted shell verbatim, without entering a render context and
without invoking the rendering engine. -/
theorem staticFastPath {P : Type} (m : Metadata) (file : Option P)
    (shell : String) (req : HttpRequest) (h : m.hasDynamicContent = false) :
    handleRoot (some m) file shell req = .serveStatic shell ∧
    invokesRenderEngine (handleRoot (some m) file shell req) = false ∧
    entersRenderContext (handleRoot (some m) file shell req) = false := by
  have hr : handleRoot (some m) file shell req = ServerAction.serveStatic shell := by
    simp [handleRoot, h]
  exact ⟨hr, by rw [hr]; rfl, by rw [hr]; rfl⟩

/-- Witness for C8 at a concrete metadata record, shell and request. -/
theorem staticFastPath_w :
    @handleRoot Unit (some ⟨false, false⟩) none "shell-bytes" ⟨[]⟩ =
      .serveStatic "shell-bytes" :=
  (staticFastPath ⟨false, false⟩ none "shell-bytes" ⟨[]⟩ rfl).1

/-- C10: the accessed-dynamic-data flag of a prerender store is true exactly when
the recorded access list is non-empty; this invariant holds of a fresh prerender
store, is preserved by every trackDynamicAccess call, and makes the metadata
flag computed by the build from the list length agree with the flag. -/
theorem storeInvariant_spec :
    StoreInv createPrerenderStore ∧
    (∀ (st st2 : Store) (e k : String), StoreInv st →
      trackDynamicAccess e k (some st) = some st2 → StoreInv st2) ∧
    (∀ (l : List AccessEvent) (f : Bool), StoreInv (.prerender l f) →
      buildHasDynamicContent (.prerender l f) = f) := by
  refine ⟨by simp [createPrerenderStore, StoreInv], ?_, ?_⟩
  · intro st st2 e k hinv heq
    cases st with
    | prerender l f =>
        simp only [trackDynamicAccess, Option.some.injEq] at heq
        subst heq
        simp [StoreInv]
    | request req =>
        simp only [trackDynamicAccess, Option.some.injEq] at heq
        subst heq
        simp [StoreInv]
  · intro l f hinv
    cases l with
    | nil =>
        have : f = false := by
          rcases hinv with ⟨h1, h2⟩
          cases f with
          | false => rfl
          | true => exact absurd rfl (h1 rfl)
        simp [buildHasDynamicContent, this]
    | cons a tl =>
        have : f = true := hinv.mpr (by simp)
        simp [buildHasDynamicContent, this]

/-- Witness for C10 at a concrete store with one recorded access. -/
theorem storeInvariant_spec_w :
    buildHasDynamicContent (.prerender [⟨"cookies()", "s"⟩] true) = true :=
  storeInvariant_spec.2.2 [⟨"cookies()", "s"⟩] true (by simp [StoreInv])

/-! ### Signal trace lemmas -/

/-- Running a trace splits across an append. -/
theorem runSig_append (s : SigSt) (a b : List SigEv) :
    runSig s (a ++ b) = runSig (runSig s a) b := by
  simp [runSig, List.foldl_append]

/-- A signal step either leaves the resolved history unchanged, or it is a
debounce check firing while the pending count is zero. -/
theorem sigStep_resolved (s : SigSt) (e : SigEv) :
    (sigStep s e).resolved = s.resolved ∨ (e = SigEv.fire ∧ s.pending = 0) := by
  cases e with
  | beginRead => exact Or.inl rfl
  | endRead =>
      left
      simp only [sigStep, endCacheRead, noMorePendingCaches]
      split <;> rfl
  | ready w =>
      left
      simp only [sigStep, cacheReadyCall, noMorePendingCaches]
      split <;> rfl
  | fire =>
      by_cases h0 : s.scheduled = 0
      · exact Or.inl (by simp [sigStep, fireDebounce, h0])
      · by_cases hp : s.pending = 0
        · exact Or.inr ⟨rfl, hp⟩
        · left
          simp [sigStep, fireDebounce, h0, hp]
  | reset => exact Or.inl rfl

/-- While the pending count stays positive and no read ends and no reset occurs,
no waiter is resolved and the count stays positive. -/
theorem resolved_const_of_pos (seg : List SigEv) :
    ∀ s : SigSt, 1 ≤ s.pending → SigEv.endRead ∉ seg → SigEv.reset ∉ seg →
      (runSig s seg).resolved = s.resolved ∧ 1 ≤ (runSig s seg).pending := by
  induction seg with
  | nil => exact fun s h _ _ => ⟨rfl, h⟩
  | cons e seg ih =>
      intro s hp hend hreset
      have hend2 : SigEv.endRead ∉ seg := fun h => hend (List.mem_cons_of_mem _ h)
      have hreset2 : SigEv.reset ∉ seg := fun h => hreset (List.mem_cons_of_mem _ h)
      have hene : e ≠ SigEv.endRead := fun h => hend (h ▸ List.mem_cons_self _ _)
      have hrne : e ≠ SigEv.reset := fun h => hreset (h ▸ List.mem_cons_self _ _)
      have hstep : (sigStep s e).resolved = s.resolved ∧ 1 ≤ (sigStep s e).pending := by
        cases e with
        | beginRead =>
            refine ⟨rfl, ?_⟩
            simp only [sigStep, beginCacheRead]
            omega
        | endRead => exact absurd rfl hene
        | ready w =>
            simp only [sigStep, cacheReadyCall, noMorePendingCaches]
            split <;> exact ⟨rfl, hp⟩
        | fire =>
            simp only [sigStep, fireDebounce]
            split
            · exact ⟨rfl, hp⟩
            · split
              · omega
              · exact ⟨rfl, hp⟩
        | reset => exact absurd rfl hrne
      have h2 := ih (sigStep s e) hstep.2 hend2 hreset2
      exact ⟨hstep.1 ▸ h2.1, h2.2⟩

/-- C3: along any event interleaving within one pass, a waiter is only ever
resolved by a debounce check that observes a pending count of exactly zero; and
after a beginRead, as long as no endRead occurs, no waiter resolves at all. -/
theorem cacheReadyDebounce :
    (∀ (pre : List SigEv) (e : SigEv) (w : Nat),
        w ∉ (runSig initSig pre).resolved →
        w ∈ (runSig initSig (pre ++ [e])).resolved →
        (runSig initSig pre).pending = 0 ∧ e = SigEv.fire) ∧
    (∀ (pre seg : List SigEv),
        0 ≤ (runSig initSig pre).pending →
        SigEv.endRead ∉ seg → SigEv.reset ∉ seg →
        (runSig initSig (pre ++ SigEv.beginRead :: seg)).resolved =
          (runSig initSig (pre ++ [SigEv.beginRead])).resolved) := by
  constructor
  · intro pre e w hnot hmem
    rw [runSig_append] at hmem
    have hone : runSig (runSig initSig pre) [e] = sigStep (runSig initSig pre) e := rfl
    rw [hone] at hmem
    rcases sigStep_resolved (runSig initSig pre) e with h | ⟨he, hp⟩
    · rw [h] at hmem
      exact absurd hmem hnot
    · exact ⟨hp, he⟩
  · intro pre seg hp hend hreset
    have e1 : runSig initSig (pre ++ SigEv.beginRead :: seg) =
        runSig (sigStep (runSig initSig pre) SigEv.beginRead) seg := by
      rw [runSig_append]
      rfl
    have e2 : runSig initSig (pre ++ [SigEv.beginRead]) =
        sigStep (runSig initSig pre) SigEv.beginRead := by
      rw [runSig_append]
      rfl
    have hpend : 1 ≤ (sigStep (runSig initSig pre) SigEv.beginRead).pending := by
      simp only [sigStep, beginCacheRead]
      omega
    have h := resolved_const_of_pos seg _ hpend hend hreset
    rw [e1, e2]
    exact h.1

/-- Witness for C3: a waiter registered at count zero resolves only at the fire
event, and a beginRead blocks resolution through a later fire. -/
theorem cacheReadyDebounce_w :
    ((runSig initSig [SigEv.ready 0]).pending = 0 ∧ SigEv.fire = SigEv.fire) ∧
    (runSig initSig ([] ++ SigEv.beginRead :: [SigEv.fire])).resolved =
      (runSig initSig ([] ++ [SigEv.beginRead])).resolved :=
  ⟨cacheReadyDebounce.1 [SigEv.ready 0] SigEv.fire 0 (by decide) (by decide),
   cacheReadyDebounce.2 [] [SigEv.fire] (by decide) (by decide) (by decide)⟩

/-- No signal operation ever rejects a waiter. -/
theorem rejected_const (tr : List SigEv) : ∀ s : SigSt, (runSig s tr).rejected = s.rejected := by
  induction tr with
  | nil => exact fun s => rfl
  | cons e tr ih =>
      intro s
      have h : (sigStep s e).rejected = s.rejected := by
        cases e with
        | beginRead => rfl
        | endRead =>
            simp only [sigStep, endCacheRead, noMorePendingCaches]
            split <;> rfl
        | ready w =>
            simp only [sigStep, cacheReadyCall, noMorePendingCaches]
            split <;> rfl
        | fire =>
            simp only [sigStep, fireDebounce]
            split
            · rfl
            · split <;> rfl
        | reset => rfl
      have h2 : (runSig s (e :: tr)).rejected = (sigStep s e).rejected := ih (sigStep s e)
      rw [h2, h]

/-- A waiter absent from both the registered list and the resolved history stays
absent from both under any events that never re-register it. -/
theorem waiter_never_resolves (post : List SigEv) :
    ∀ (s : SigSt) (w : Nat), w ∉ s.resolvers → w ∉ s.resolved →
      (∀ e ∈ post, e ≠ SigEv.ready w) →
      w ∉ (runSig s post).resolvers ∧ w ∉ (runSig s post).resolved := by
  induction post with
  | nil => exact fun s w h1 h2 _ => ⟨h1, h2⟩
  | cons e post ih =>
      intro s w h1 h2 hfr
      have hstep : w ∉ (sigStep s e).resolvers ∧ w ∉ (sigStep s e).resolved := by
        cases e with
        | beginRead => exact ⟨h1, h2⟩
        | endRead =>
            simp only [sigStep, endCacheRead, noMorePendingCaches]
            split <;> exact ⟨h1, h2⟩
        | ready w2 =>
            have hw2 : w2 ≠ w := by
              intro hcontra
              exact (hfr _ (List.mem_cons_self _ _)) (by rw [hcontra])
            simp only [sigStep, cacheReadyCall, noMorePendingCaches]
            have hres : w ∉ s.resolvers ++ [w2] := by
              intro hmem
              rcases List.mem_append.mp hmem with hL | hR
              · exact h1 hL
              · exact hw2 (List.mem_singleton.mp hR).symm
            split <;> exact ⟨hres, h2⟩
        | fire =>
            simp only [sigStep, fireDebounce]
            split
            · exact ⟨h1, h2⟩
            · split
              · refine ⟨List.not_mem_nil w, ?_⟩
                intro hmem
                rcases List.mem_append.mp hmem with hL | hR
                · exact h2 hL
                · exact h1 hR
              · exact ⟨h1, h2⟩
        | reset => exact ⟨List.not_mem_nil w, h2⟩
      exact ih _ _ hstep.1 hstep.2 (fun e2 he2 => hfr _ (List.mem_cons_of_mem _ he2))

/-- C4: a waiter registered before a reset is permanently abandoned: no later
sequence of events resolves it, and nothing ever rejects it. -/
theorem resetAbandonsWaiters (pre post : List SigEv) (w : Nat)
    (hreg : w ∈ (runSig initSig pre).resolvers)
    (hnres : w ∉ (runSig initSig pre).resolved)
    (hfresh : ∀ e ∈ post, e ≠ SigEv.ready w) :
    w ∉ (runSig initSig (pre ++ SigEv.reset :: post)).resolved ∧
    w ∉ (runSig initSig (pre ++ SigEv.reset :: post)).rejected := by
  have _hreg := hreg
  have e1 : runSig initSig (pre ++ SigEv.reset :: post) =
      runSig (sigStep (runSig initSig pre) SigEv.reset) post := by
    rw [runSig_append]
    rfl
  constructor
  · rw [e1]
    exact (waiter_never_resolves post (sigStep (runSig initSig pre) SigEv.reset) w
      (List.not_mem_nil w) hnres hfresh).2
  · rw [e1, rejected_const]
    have h0 : (runSig initSig pre).rejected = initSig.rejected := rejected_const pre initSig
    have h1 : (sigStep (runSig initSig pre) SigEv.reset).rejected =
        (runSig initSig pre).rejected := rfl
    rw [h1, h0]
    exact List.not_mem_nil w

/-- Witness for C4: a waiter registered and then reset away stays unresolved even
when a scheduled debounce check later fires clean. -/
theorem resetAbandonsWaiters_w :
    5 ∉ (runSig initSig ([SigEv.ready 5] ++ SigEv.reset :: [SigEv.fire])).resolved :=
  (resetAbandonsWaiters [SigEv.ready 5] [SigEv.fire] 5 (by decide) (by decide)
    (by decide)).1

/-! ### Content-cache lemmas -/

/-- Looking up a key just stored finds the stored value. -/
theorem lookup_set_self {V : Type} (k : List Char) (v : V) (st : List (List Char × V)) :
    lookupStore k (setStore k v st) = some v := by
  induction st with
  | nil => simp [setStore, lookupStore]
  | cons p r ih =>
      obtain ⟨k2, v2⟩ := p
      by_cases h : k2 = k
      · simp [setStore, lookupStore, h]
      · simp [setStore, lookupStore, h, ih]

/-- Storing under one key leaves lookups of any other key unchanged. -/
theorem lookup_set_ne {V : Type} (k1 k2 : List Char) (v : V) (st : List (List Char × V))
    (h : k1 ≠ k2) :
    lookupStore k1 (setStore k2 v st) = lookupStore k1 st := by
  induction st with
  | nil => simp [setStore, lookupStore, Ne.symm h]
  | cons p r ih =>
      obtain ⟨k3, v3⟩ := p
      by_cases h2 : k3 = k2
      · subst h2
        simp [setStore, lookupStore, Ne.symm h]
      · simp [setStore, lookupStore, h2, ih]

/-- A begin-count followed by an end-count leaves the pending count unchanged. -/
theorem pending_begin_end (s : SigSt) : (endCacheRead (beginCacheRead s)).pending = s.pending := by
  simp only [endCacheRead, beginCacheRead, noMorePendingCaches]
  split <;> (show s.pending + 1 - 1 = s.pending; omega)

/-- One cold cachedCall on a miss with a successful producer: outcome, state and log. -/
theorem cachedCall_miss_ok {V E : Type} (name : List Char) (args : JsonList)
    (fn : JsonList → Except E V) (st0 : CacheSt V) (v : V)
    (hmiss : lookupStore (generateCacheKey name args) st0.store = none)
    (hok : fn args = .ok v) :
    cachedCall name fn args st0 =
      (.ok v,
       { store := setStore (generateCacheKey name args) v st0.store,
         sig := endCacheRead (beginCacheRead st0.sig),
         currentPhase := st0.currentPhase },
       (if isFinalRender st0 then [CacheEv.warnedFinalMiss] else []) ++
         [CacheEv.began, CacheEv.producerCalled, CacheEv.ended]) := by
  simp [cachedCall, hmiss, hok]

/-- One cachedCall on a miss with a failing producer: outcome, state and log. -/
theorem cachedCall_miss_err {V E : Type} (name : List Char) (args : JsonList)
    (fn : JsonList → Except E V) (st0 : CacheSt V) (e : E)
    (hmiss : lookupStore (generateCacheKey name args) st0.store = none)
    (herr : fn args = .error e) :
    cachedCall name fn args st0 =
      (.error e,
       { store := st0.store,
         sig := endCacheRead (beginCacheRead st0.sig),
         currentPhase := st0.currentPhase },
       (if isFinalRender st0 then [CacheEv.warnedFinalMiss] else []) ++
         [CacheEv.began, CacheEv.producerCalled, CacheEv.ended]) := by
  simp [cachedCall, hmiss, herr]

/-- One cachedCall on a hit: the cached value comes back, the state is untouched,
and the log shows only the hit. -/
theorem cachedCall_hit {V E : Type} (name : List Char) (args : JsonList)
    (fn : JsonList → Except E V) (st0 : CacheSt V) (v : V)
    (hhit : lookupStore (generateCacheKey name args) st0.store = some v) :
    cachedCall name fn args st0 = (.ok v, st0, [CacheEv.hitLog]) := by
  simp [cachedCall, hhit]

/-- C1: for structurally equal argument lists and a successful producer, two
invocations of the cached wrapper from a state without the entry invoke the
producer exactly once; the second invocation returns the value the first one
stored and, being a hit, performs no beginRead or endRead interaction and leaves
the completion-signal state untouched. -/
theorem cachedMemoizes {V E : Type} (name : List Char) (args : JsonList)
    (fn : JsonList → Except E V) (st0 : CacheSt V) (v : V)
    (hmiss : lookupStore (generateCacheKey name args) st0.store = none)
    (hok : fn args = .ok v) :
    (cachedCall name fn args st0).1 = .ok v ∧
    ((cachedCall name fn args st0).2.2.count .producerCalled) = 1 ∧
    (cachedCall name fn args (cachedCall name fn args st0).2.1).1 = .ok v ∧
    ((cachedCall name fn args (cachedCall name fn args st0).2.1).2.2.count
      .producerCalled) = 0 ∧
    CacheEv.began ∉ (cachedCall name fn args (cachedCall name fn args st0).2.1).2.2 ∧
    CacheEv.ended ∉ (cachedCall name fn args (cachedCall name fn args st0).2.1).2.2 ∧
    (cachedCall name fn args (cachedCall name fn args st0).2.1).2.1.sig =
      (cachedCall name fn args st0).2.1.sig := by
  have h1 := cachedCall_miss_ok name args fn st0 v hmiss hok
  have h2 := cachedCall_hit name args fn
    ((cachedCall name fn args st0).2.1) v (by rw [h1]; exact lookup_set_self _ _ _)
  refine ⟨by rw [h1], ?_, by rw [h2], by rw [h2]; simp, by rw [h2]; simp,
    by rw [h2]; simp, by rw [h2]⟩
  rw [h1]
  by_cases hf : isFinalRender st0 <;> simp [hf]

/-- Witness for C1 at a concrete name, empty argument list and constant producer. -/
theorem cachedMemoizes_w :
    (cachedCall "f".data (fun _ => (.ok 37 : Except Unit Nat)) .nil
        (cachedCall "f".data (fun _ => (.ok 37 : Except Unit Nat)) .nil
          ⟨[], initSig, "prospective"⟩).2.1).1 =
      .ok 37 :=
  (cachedMemoizes "f".data .nil (fun _ => .ok 37) ⟨[], initSig, "prospective"⟩ 37
    rfl rfl).2.2.1

/-- C2: when the producer fails, the cached wrapper stores no entry under the key,
propagates the failure to the caller, and endRead still fires so the pending
count returns to its pre-call value; begin and end both appear in the log. -/
theorem cachedProducerFailure {V E : Type} (name : List Char) (args : JsonList)
    (fn : JsonList → Except E V) (st0 : CacheSt V) (e : E)
    (hmiss : lookupStore (generateCacheKey name args) st0.store = none)
    (herr : fn args = .error e) :
    (cachedCall name fn args st0).1 = .error e ∧
    lookupStore (generateCacheKey name args) (cachedCall name fn args st0).2.1.store = none ∧
    (cachedCall name fn args st0).2.1.sig.pending = st0.sig.pending ∧
    CacheEv.began ∈ (cachedCall name fn args st0).2.2 ∧
    CacheEv.ended ∈ (cachedCall name fn args st0).2.2 := by
  have h1 := cachedCall_miss_err name args fn st0 e hmiss herr
  refine ⟨by rw [h1], by rw [h1]; exact hmiss, ?_, ?_, ?_⟩
  · rw [h1]
    exact pending_begin_end st0.sig
  · rw [h1]
    by_cases hf : isFinalRender st0 <;> simp [hf]
  · rw [h1]
    by_cases hf : isFinalRender st0 <;> simp [hf]

/-- Witness for C2 at a concrete failing producer. -/
theorem cachedProducerFailure_w :
    lookupStore (generateCacheKey "g".data .nil)
      (cachedCall "g".data (fun _ => (.error () : Except Unit Nat)) .nil
        ⟨[], initSig, "prospective"⟩).2.1.store = none :=
  (cachedProducerFailure "g".data .nil (fun _ => .error ()) ⟨[], initSig, "prospective"⟩ ()
    rfl rfl).2.1

/-- C9: a cache miss while the render phase is final emits the loud warning and
still falls through to a cold compute: the producer runs once, its result is
stored under the key, and the result is returned to the caller. -/
theorem finalPassMissFallsThrough {V E : Type} (name : List Char) (args : JsonList)
    (fn : JsonList → Except E V) (st0 : CacheSt V) (v : V)
    (hphase : st0.currentPhase = "final")
    (hmiss : lookupStore (generateCacheKey name args) st0.store = none)
    (hok : fn args = .ok v) :
    CacheEv.warnedFinalMiss ∈ (cachedCall name fn args st0).2.2 ∧
    ((cachedCall name fn args st0).2.2.count .producerCalled) = 1 ∧
    (cachedCall name fn args st0).1 = .ok v ∧
    lookupStore (generateCacheKey name args) (cachedCall name fn args st0).2.1.store =
      some v := by
  have h1 := cachedCall_miss_ok name args fn st0 v hmiss hok
  have hf : isFinalRender st0 = true := by
    simp [isFinalRender, hphase]
  refine ⟨?_, ?_, by rw [h1], ?_⟩
  · rw [h1]
    simp [hf]
  · rw [h1]
    simp [hf]
  · rw [h1]
    exact lookup_set_self _ _ _

/-- Witness for C9 at a concrete miss in the final phase. -/
theorem finalPassMissFallsThrough_w :
    CacheEv.warnedFinalMiss ∈
      (cachedCall "h".data (fun _ => (.ok 7 : Except Unit Nat)) .nil
        ⟨[], initSig, "final"⟩).2.2 :=
  (finalPassMissFallsThrough "h".data .nil (fun _ => .ok 7) ⟨[], initSig, "final"⟩ 7
    rfl rfl rfl).1

/-! ### Scanner basics -/

/-- Scanning splits across an append. -/
theorem scanL_append (s : ScanSt) (a b : List Char) :
    scanL s (a ++ b) = scanL (scanL s a) b := by
  simp [scanL, List.foldl_append]

/-- An inert character leaves an outside-string state unchanged. -/
theorem scanStep_neutral {c : Char} (h : NeutralC c) (d : Int) :
    scanStep ⟨false, false, d⟩ c = ⟨false, false, d⟩ := by
  obtain ⟨h1, _, h3, h4⟩ := h
  simp [scanStep, h1, h3, h4]

/-- A sequence of inert characters leaves an outside-string state unchanged. -/
theorem scanL_neutral (t : List Char) :
    (∀ c ∈ t, NeutralC c) → ∀ d : Int, scanL ⟨false, false, d⟩ t = ⟨false, false, d⟩ := by
  induction t with
  | nil => exact fun _ _ => rfl
  | cons c r ih =>
      intro h d
      have hc := h c (List.mem_cons_self _ _)
      have hr : ∀ c2 ∈ r, NeutralC c2 := fun c2 hc2 => h c2 (List.mem_cons_of_mem _ hc2)
      calc scanL ⟨false, false, d⟩ (c :: r)
          = scanL (scanStep ⟨false, false, d⟩ c) r := rfl
        _ = scanL ⟨false, false, d⟩ r := by rw [scanStep_neutral hc]
        _ = ⟨false, false, d⟩ := ih hr d

/-- A scan step never produces an escape-pending state outside a string. -/
theorem scanStep_esc (st : ScanSt) (ch : Char) :
    (scanStep st ch).esc = true → (scanStep st ch).inStr = true := by
  unfold scanStep
  split_ifs <;> simp

/-- Escape-pending implies in-string, preserved along any scan. -/
theorem scanL_esc (t : List Char) :
    ∀ st : ScanSt, (st.esc = true → st.inStr = true) →
      ((scanL st t).esc = true → (scanL st t).inStr = true) := by
  induction t with
  | nil => exact fun st h => h
  | cons c r ih => exact fun st _ => ih (scanStep st c) (scanStep_esc st c)

/-- A state reached from a clean start that is outside a string has no pending escape. -/
theorem scanL_outside_esc (t : List Char) (d : Int)
    (h : (scanL ⟨false, false, d⟩ t).inStr = false) :
    (scanL ⟨false, false, d⟩ t).esc = false := by
  cases hesc : (scanL ⟨false, false, d⟩ t).esc with
  | false => rfl
  | true =>
      have := scanL_esc t ⟨false, false, d⟩ (fun hh => by simp at hh) hesc
      rw [this] at h
      exact absurd h (by simp)

/-- A scan step on a non-backslash character leaves no pending escape. -/
theorem scanStep_esc_of_ne (st : ScanSt) (ch : Char) (h : ch ≠ '\\') :
    (scanStep st ch).esc = false := by
  unfold scanStep
  split_ifs <;> simp_all

/-- The empty fragment is a token. -/
theorem stok_nil : STok [] := by
  refine ⟨fun st _ _ => rfl, ?_, ?_⟩
  · intro t c r h d
    exact absurd h (by simp)
  · intro t r h d
    have ht : t = [] := (List.append_eq_nil.mp h.symm).1
    subst ht
    exact le_refl d

/-- A fragment of inert characters is a token. -/
theorem stok_neutral (s : List Char) (h : ∀ c ∈ s, NeutralC c) : STok s := by
  refine ⟨?_, ?_, ?_⟩
  · intro st h1 h2
    obtain ⟨i, e, dd⟩ := st
    simp only at h1 h2
    subst h1
    subst h2
    exact scanL_neutral s h dd
  · intro t c r heq d _
    have hc : c ∈ s := by
      rw [heq]
      simp
    exact (h c hc).2.1
  · intro t r heq d
    have ht : ∀ c ∈ t, NeutralC c := by
      intro c hc
      refine h c ?_
      rw [heq]
      exact List.mem_append_left _ hc
    rw [scanL_neutral t ht d]

/-- Tokens are closed under concatenation. -/
theorem stok_append {a b : List Char} (ha : STok a) (hb : STok b) : STok (a ++ b) := by
  refine ⟨?_, ?_, ?_⟩
  · intro st h1 h2
    rw [scanL_append, ha.bal st h1 h2, hb.bal st h1 h2]
  · intro t c r heq d hin
    rcases List.append_eq_append_iff.mp heq with ⟨x, ht, hx⟩ | ⟨y, hy, hcr⟩
    · subst ht
      rw [scanL_append] at hin
      rw [ha.bal ⟨false, false, d⟩ rfl rfl] at hin
      exact hb.nobs x c r hx d hin
    · cases y with
      | nil =>
          rw [List.append_nil] at hy
          subst hy
          have hb2 : b = [] ++ c :: r := by
            rw [List.nil_append]
            exact hcr.symm
          refine hb.nobs [] c r hb2 d ?_
          rfl
      | cons c2 y2 =>
          subst hy
          have h3 : c :: r = c2 :: (y2 ++ b) := by simpa using hcr
          have hcc : c2 = c := ((List.cons.injEq _ _ _ _).mp h3.symm).1
          exact hcc ▸ ha.nobs t c2 y2 rfl d hin
  · intro t r heq d
    rcases List.append_eq_append_iff.mp heq with ⟨x, ht, hx⟩ | ⟨y, hy, hr⟩
    · subst ht
      rw [scanL_append, ha.bal ⟨false, false, d⟩ rfl rfl]
      exact hb.deep x r hx d
    · exact ha.deep t y hy d

/-! ### String-literal tokens -/

/-- Scanning one escaped character from inside a string stays inside the string. -/
theorem escapeChar_scan (c : Char) (d : Int) :
    scanL ⟨true, false, d⟩ (escapeChar c) = ⟨true, false, d⟩ := by
  unfold escapeChar
  split_ifs with h1 h2 h3 h4 h5 <;>
    simp [scanL, scanStep, *]

/-- Scanning an escaped body from inside a string stays inside the string. -/
theorem escBody_scan (s : List Char) :
    ∀ d : Int, scanL ⟨true, false, d⟩ (escBody s) = ⟨true, false, d⟩ := by
  induction s with
  | nil => exact fun _ => rfl
  | cons c r ih =>
      intro d
      show scanL ⟨true, false, d⟩ (escapeChar c ++ escBody r) = _
      rw [scanL_append, escapeChar_scan, ih d]

/-- Every split point of a backslash-escape pair is inside the string, at unchanged depth. -/
theorem escPair_pref (z : Char) (t r : List Char) (heq : ['\\', z] = t ++ r) (d : Int) :
    (scanL ⟨true, false, d⟩ t).inStr = true ∧ (scanL ⟨true, false, d⟩ t).depth = d := by
  rcases t with _ | ⟨x, _ | ⟨y, t2⟩⟩
  · exact ⟨rfl, rfl⟩
  · have hx : '\\' = x := ((List.cons.injEq _ _ _ _).mp heq).1
    subst hx
    constructor <;> simp [scanL, scanStep]
  · have hflat := heq
    simp only [List.cons_append, List.cons.injEq] at hflat
    obtain ⟨hx, hy, ht2⟩ := hflat
    have ht2e : t2 = [] := (List.append_eq_nil.mp ht2.symm).1
    subst hx
    subst hy
    subst ht2e
    constructor <;> simp [scanL, scanStep]

/-- Every split point of an unescaped single character is inside the string, at
unchanged depth. -/
theorem escSingle_pref (c : Char) (hq : c ≠ '"') (hb : c ≠ '\\') (t r : List Char)
    (heq : [c] = t ++ r) (d : Int) :
    (scanL ⟨true, false, d⟩ t).inStr = true ∧ (scanL ⟨true, false, d⟩ t).depth = d := by
  rcases t with _ | ⟨x, _ | ⟨y, t2⟩⟩
  · exact ⟨rfl, rfl⟩
  · have hx : c = x := ((List.cons.injEq _ _ _ _).mp heq).1
    subst hx
    constructor <;> simp [scanL, scanStep, hq, hb]
  · exfalso
    have hflat := heq
    simp only [List.cons_append, List.cons.injEq] at hflat
    exact absurd hflat.2 (by simp)

/-- Every split point of one escaped character is inside the string, at unchanged depth. -/
theorem escapeChar_pref (c : Char) (t r : List Char) (heq : escapeChar c = t ++ r) (d : Int) :
    (scanL ⟨true, false, d⟩ t).inStr = true ∧ (scanL ⟨true, false, d⟩ t).depth = d := by
  unfold escapeChar at heq
  split_ifs at heq with h1 h2 h3 h4 h5
  · exact escPair_pref _ t r heq d
  · exact escPair_pref _ t r heq d
  · exact escPair_pref _ t r heq d
  · exact escPair_pref _ t r heq d
  · exact escPair_pref _ t r heq d
  · exact escSingle_pref c h1 h2 t r heq d

/-- Every split point of an escaped body is inside the string, at unchanged depth. -/
theorem escBody_pref (s : List Char) :
    ∀ t r, escBody s = t ++ r → ∀ d : Int,
      (scanL ⟨true, false, d⟩ t).inStr = true ∧ (scanL ⟨true, false, d⟩ t).depth = d := by
  induction s with
  | nil =>
      intro t r heq d
      have ht : t = [] := (List.append_eq_nil.mp heq.symm).1
      subst ht
      exact ⟨rfl, rfl⟩
  | cons c s2 ih =>
      intro t r heq d
      have heq2 : escapeChar c ++ escBody s2 = t ++ r := heq
      rcases List.append_eq_append_iff.mp heq2 with ⟨x, ht, hx⟩ | ⟨y, hy, hr⟩
      · subst ht
        rw [scanL_append, escapeChar_scan]
        exact ih x r hx d
      · exact escapeChar_pref c t y hy d

/-- A serialized string literal is a token. -/
theorem strTok_stok (s : List Char) : STok (strTok s) := by
  refine ⟨?_, ?_, ?_⟩
  · intro st h1 h2
    obtain ⟨i, e, dd⟩ := st
    simp only at h1 h2
    subst h1
    subst h2
    show scanL (scanStep ⟨false, false, dd⟩ '"') (escBody s ++ ['"']) = _
    have e1 : scanStep ⟨false, false, dd⟩ '"' = ⟨true, false, dd⟩ := by
      simp [scanStep]
    rw [e1, scanL_append, escBody_scan]
    simp [scanL, scanStep]
  · intro t c r heq d hin
    cases t with
    | nil =>
        have : c = '"' := by
          have h2 : '"' :: (escBody s ++ ['"']) = c :: r := heq
          exact (((List.cons.injEq _ _ _ _).mp h2).1).symm
        subst this
        decide
    | cons c0 t1 =>
        have h2 : '"' :: (escBody s ++ ['"']) = c0 :: (t1 ++ c :: r) := heq
        have hc0 : '"' = c0 := ((List.cons.injEq _ _ _ _).mp h2).1
        have hbody : escBody s ++ ['"'] = t1 ++ c :: r := ((List.cons.injEq _ _ _ _).mp h2).2
        have hin2 : (scanL ⟨true, false, d⟩ t1).inStr = false := by
          have e1 : scanL ⟨false, false, d⟩ (c0 :: t1) = scanL (scanStep ⟨false, false, d⟩ c0) t1 := rfl
          rw [e1, ← hc0] at hin
          have e2 : scanStep ⟨false, false, d⟩ '"' = ⟨true, false, d⟩ := by simp [scanStep]
          rw [e2] at hin
          exact hin
        rcases List.append_eq_append_iff.mp hbody with ⟨x, ht1, hx⟩ | ⟨y, hy, hcr⟩
        · -- t1 extends past the escaped body: the only remaining character is the quote
          have : c = '"' := by
            rcases x with _ | ⟨xc, x2⟩
            · exact (((List.cons.injEq _ _ _ _).mp hx).1).symm
            · exfalso
              simp [List.cons.injEq] at hx
          subst this
          decide
        · cases y with
          | nil =>
              rw [List.append_nil] at hy
              exfalso
              have := (escBody_pref s t1 [] (by rw [hy, List.append_nil]) d).1
              rw [this] at hin2
              exact absurd hin2 (by simp)
          | cons yc y2 =>
              exfalso
              have := (escBody_pref s t1 (yc :: y2) hy d).1
              rw [this] at hin2
              exact absurd hin2 (by simp)
  · intro t r heq d
    cases t with
    | nil => exact le_refl d
    | cons c0 t1 =>
        have h2 : '"' :: (escBody s ++ ['"']) = c0 :: (t1 ++ r) := heq
        have hc0 : '"' = c0 := ((List.cons.injEq _ _ _ _).mp h2).1
        have hbody : escBody s ++ ['"'] = t1 ++ r := ((List.cons.injEq _ _ _ _).mp h2).2
        have e1 : scanL ⟨false, false, d⟩ (c0 :: t1) = scanL ⟨true, false, d⟩ t1 := by
          show scanL (scanStep ⟨false, false, d⟩ c0) t1 = _
          rw [← hc0]
          have e2 : scanStep ⟨false, false, d⟩ '"' = ⟨true, false, d⟩ := by simp [scanStep]
          rw [e2]
        rw [e1]
        rcases List.append_eq_append_iff.mp hbody with ⟨x, ht1, hx⟩ | ⟨y, hy, hr⟩
        · subst ht1
          rw [scanL_append, escBody_scan]
          rcases x with _ | ⟨xc, x2⟩
          · exact le_refl d
          · have hxc : xc = '"' ∧ x2 = [] := by
              have := congrArg List.length hx
              simp at this
              have hx2 : x2 = [] := by
                cases x2 with
                | nil => rfl
                | cons a b => simp at this
              subst hx2
              exact ⟨(((List.cons.injEq _ _ _ _).mp hx).1).symm, rfl⟩
            obtain ⟨hxc1, hx2⟩ := hxc
            subst hxc1
            subst hx2
            have e3 : scanL ⟨true, false, d⟩ ['"'] = ⟨false, false, d⟩ := by
              simp [scanL, scanStep]
            rw [e3]
        · have := (escBody_pref s t1 y hy d).2
          rw [this]

/-! ### Bracket-wrapped tokens -/

/-- An opening bracket is neither a quote, a backslash, nor a closing bracket. -/
theorem openB_facts {o : Char} (h : isOpenB o = true) :
    o ≠ '"' ∧ o ≠ '\\' ∧ isCloseB o = false := by
  have h2 : o = '[' ∨ o = obrace := by
    simpa [isOpenB] using h
  rcases h2 with h3 | h3 <;> subst h3 <;> refine ⟨by decide, by decide, by decide⟩

/-- A closing bracket is neither a quote, a backslash, nor an opening bracket. -/
theorem closeB_facts {c : Char} (h : isCloseB c = true) :
    c ≠ '"' ∧ c ≠ '\\' ∧ isOpenB c = false := by
  have h2 : c = ']' ∨ c = cbrace := by
    simpa [isCloseB] using h
  rcases h2 with h3 | h3 <;> subst h3 <;> refine ⟨by decide, by decide, by decide⟩

/-- An opening bracket outside a string pushes the depth. -/
theorem scanStep_open {o : Char} (h : isOpenB o = true) (d : Int) :
    scanStep ⟨false, false, d⟩ o = ⟨false, false, d + 1⟩ := by
  obtain ⟨h1, _, _⟩ := openB_facts h
  simp [scanStep, h1, h]

/-- A closing bracket outside a string pops the depth. -/
theorem scanStep_close {c : Char} (h : isCloseB c = true) (d : Int) :
    scanStep ⟨false, false, d⟩ c = ⟨false, false, d - 1⟩ := by
  obtain ⟨h1, _, h3⟩ := closeB_facts h
  simp [scanStep, h1, h3, h]

/-- Wrapping a token in matching brackets yields a token. -/
theorem stok_wrap {body : List Char} {o c : Char} (ho : isOpenB o = true)
    (hc : isCloseB c = true) (hb : STok body) : STok (o :: body ++ [c]) := by
  refine ⟨?_, ?_, ?_⟩
  · intro st h1 h2
    obtain ⟨i, e, dd⟩ := st
    simp only at h1 h2
    subst h1
    subst h2
    show scanL (scanStep ⟨false, false, dd⟩ o) (body ++ [c]) = _
    rw [scanStep_open ho, scanL_append, hb.bal ⟨false, false, dd + 1⟩ rfl rfl]
    show scanStep ⟨false, false, dd + 1⟩ c = _
    rw [scanStep_close hc]
    have : dd + 1 - 1 = dd := by omega
    rw [this]
  · intro t ch r heq d hin
    cases t with
    | nil =>
        have hch : o = ch := ((List.cons.injEq _ _ _ _).mp heq).1
        exact hch ▸ (openB_facts ho).2.1
    | cons c0 t1 =>
        have hc0 : o = c0 := ((List.cons.injEq _ _ _ _).mp heq).1
        have hbody : body ++ [c] = t1 ++ ch :: r := ((List.cons.injEq _ _ _ _).mp heq).2
        have hin2 : (scanL ⟨false, false, d + 1⟩ t1).inStr = false := by
          have e1 : scanL ⟨false, false, d⟩ (c0 :: t1) =
              scanL (scanStep ⟨false, false, d⟩ c0) t1 := rfl
          rw [e1, ← hc0, scanStep_open ho] at hin
          exact hin
        rcases List.append_eq_append_iff.mp hbody with ⟨x, ht1, hx⟩ | ⟨y, hy, hcr⟩
        · have hch : ch = c := by
            rcases x with _ | ⟨xc, x2⟩
            · exact (((List.cons.injEq _ _ _ _).mp hx).1).symm
            · exfalso
              simp [List.cons.injEq] at hx
          exact hch ▸ (closeB_facts hc).2.1
        · cases y with
          | nil =>
              rw [List.append_nil] at hy
              have hch : ch = c := by
                have h3 : ch :: r = [c] := by simpa using hcr
                exact ((List.cons.injEq _ _ _ _).mp h3).1
              exact hch ▸ (closeB_facts hc).2.1
          | cons yc y2 =>
              have h3 : ch :: r = yc :: (y2 ++ [c]) := by simpa using hcr
              have hyc : ch = yc := ((List.cons.injEq _ _ _ _).mp h3).1
              exact hyc ▸ hb.nobs t1 yc y2 hy (d + 1) hin2
  · intro t r heq d
    cases t with
    | nil => exact le_refl d
    | cons c0 t1 =>
        have hc0 : o = c0 := ((List.cons.injEq _ _ _ _).mp heq).1
        have hbody : body ++ [c] = t1 ++ r := ((List.cons.injEq _ _ _ _).mp heq).2
        have e1 : scanL ⟨false, false, d⟩ (c0 :: t1) = scanL ⟨false, false, d + 1⟩ t1 := by
          show scanL (scanStep ⟨false, false, d⟩ c0) t1 = _
          rw [← hc0, scanStep_open ho]
        rw [e1]
        rcases List.append_eq_append_iff.mp hbody with ⟨x, ht1, hx⟩ | ⟨y, hy, hr⟩
        · subst ht1
          rw [scanL_append, hb.bal ⟨false, false, d + 1⟩ rfl rfl]
          rcases x with _ | ⟨xc, x2⟩
          · show d ≤ d + 1
            omega
          · have hxc : xc = c ∧ x2 = [] := by
              have h3 := hx
              simp only [List.cons_append, List.cons.injEq] at h3
              refine ⟨h3.1.symm, ?_⟩
              have h4 := h3.2
              exact (List.append_eq_nil.mp h4.symm).1
            obtain ⟨hxc1, hx2⟩ := hxc
            subst hxc1
            subst hx2
            show (scanStep ⟨false, false, d + 1⟩ xc).depth ≥ d
            rw [scanStep_close hc]
            show d ≤ d + 1 - 1
            omega
        · have := hb.deep t1 y hy (d + 1)
          omega

/-- Every proper non-empty split point of a bracket-wrapped token sits strictly
deeper than the starting depth. -/
theorem wrap_pos {body : List Char} {o c : Char} (ho : isOpenB o = true)
    (_hc : isCloseB c = true) (hb : STok body) :
    ∀ t r, o :: body ++ [c] = t ++ r → t ≠ [] → r ≠ [] →
      ∀ d : Int, d + 1 ≤ (scanL ⟨false, false, d⟩ t).depth := by
  intro t r heq htne hrne d
  cases t with
  | nil => exact absurd rfl htne
  | cons c0 t1 =>
      have hc0 : o = c0 := ((List.cons.injEq _ _ _ _).mp heq).1
      have hbody : body ++ [c] = t1 ++ r := ((List.cons.injEq _ _ _ _).mp heq).2
      have e1 : scanL ⟨false, false, d⟩ (c0 :: t1) = scanL ⟨false, false, d + 1⟩ t1 := by
        show scanL (scanStep ⟨false, false, d⟩ c0) t1 = _
        rw [← hc0, scanStep_open ho]
      rw [e1]
      rcases List.append_eq_append_iff.mp hbody with ⟨x, ht1, hx⟩ | ⟨y, hy, hr⟩
      · rcases x with _ | ⟨xc, x2⟩
        · subst ht1
          rw [List.append_nil, hb.bal ⟨false, false, d + 1⟩ rfl rfl]
        · exfalso
          have h3 := hx
          simp only [List.cons_append, List.cons.injEq] at h3
          have h4 := h3.2
          have hx2 : x2 = [] ∧ r = [] := by
            constructor
            · exact (List.append_eq_nil.mp h4.symm).1
            · exact (List.append_eq_nil.mp h4.symm).2
          exact hrne hx2.2
      · have := hb.deep t1 y hy (d + 1)
        exact this

/-! ### Every stringify output is a token -/

/-- Digit characters are inert for the scanner. -/
theorem digitChar_neutral (n : Nat) : NeutralC (digitChar n) := by
  unfold digitChar
  split <;> decide

/-- All characters of a printed natural number are inert. -/
theorem natChars_neutral (n : Nat) : ∀ c ∈ natChars n, NeutralC c := by
  induction n using Nat.strong_induction_on with
  | _ n ih =>
    rw [natChars]
    split
    · intro c hc
      rw [List.mem_singleton] at hc
      subst hc
      exact digitChar_neutral n
    · intro c hc
      rcases List.mem_append.mp hc with h | h
      · exact ih (n / 10) (Nat.div_lt_self (by omega) (by omega)) c h
      · rw [List.mem_singleton] at h
        subst h
        exact digitChar_neutral (n % 10)

/-- All characters of a printed integer are inert. -/
theorem intChars_neutral (i : Int) : ∀ c ∈ intChars i, NeutralC c := by
  unfold intChars
  split
  · intro c hc
    rcases List.mem_cons.mp hc with h | h
    · subst h
      decide
    · exact natChars_neutral _ c h
  · exact natChars_neutral _

mutual

/-- Every serialized JSON value satisfies the three scan properties. -/
theorem tokV : ∀ v : JsonValue, STok (strV v)
  | .jnull => stok_neutral _ (by decide)
  | .jbool true => stok_neutral _ (by decide)
  | .jbool false => stok_neutral _ (by decide)
  | .jnum i => stok_neutral _ (intChars_neutral i)
  | .jstr s => strTok_stok s.data
  | .jarr xs => stok_wrap (by decide) (by decide) (tokL xs)
  | .jobj fs => stok_wrap (by decide) (by decide) (tokF fs)

/-- Every serialized array body satisfies the three scan properties. -/
theorem tokL : ∀ xs : JsonList, STok (strL xs)
  | .nil => stok_nil
  | .cons v .nil => tokV v
  | .cons v (.cons w tl) =>
      stok_append (tokV v)
        (stok_append (stok_neutral [','] (by decide)) (tokL (.cons w tl)))

/-- Every serialized object body satisfies the three scan properties. -/
theorem tokF : ∀ fs : JsonFields, STok (strF fs)
  | .fnil => stok_nil
  | .fcons k v .fnil =>
      stok_append (strTok_stok k.data)
        (stok_append (stok_neutral [':'] (by decide)) (tokV v))
  | .fcons k v (.fcons k2 v2 tl) =>
      stok_append
        (stok_append (strTok_stok k.data)
          (stok_append (stok_neutral [':'] (by decide)) (tokV v)))
        (stok_append (stok_neutral [','] (by decide)) (tokF (.fcons k2 v2 tl)))

end

/-! ### The phase-opposition walk -/

/-- Inside a string with no pending escape, a quote closes the string. -/
theorem scanStep_instr_quote (st : ScanSt) (ha : st.inStr = true) (hae : st.esc = false) :
    scanStep st '"' = ⟨false, false, st.depth⟩ := by
  unfold scanStep
  split_ifs <;> simp_all

/-- Inside a string with no pending escape, a non-quote non-backslash character
keeps the scan inside the string. -/
theorem scanStep_instr_other (st : ScanSt) (ch : Char) (ha : st.inStr = true)
    (hae : st.esc = false) (hbsl : ch ≠ '\\') (hq : ch ≠ '"') :
    scanStep st ch = ⟨true, false, st.depth⟩ := by
  unfold scanStep
  split_ifs <;> simp_all

/-- Outside a string, a quote opens one. -/
theorem scanStep_out_quote (st : ScanSt) (hb : st.inStr = false) :
    scanStep st '"' = ⟨true, false, st.depth⟩ := by
  unfold scanStep
  split_ifs <;> simp_all

/-- Outside a string, a non-quote character keeps the scan outside, unescaped. -/
theorem scanStep_out_other (st : ScanSt) (ch : Char) (hb : st.inStr = false) (hq : ch ≠ '"') :
    (scanStep st ch).inStr = false ∧ (scanStep st ch).esc = false := by
  unfold scanStep
  split_ifs <;> simp_all

/-- Opposite string phases propagate along a common suffix of two fragments, as
long as neither fragment puts a backslash at a position its own scan reads
outside a string. -/
theorem opp_walk (s1 s2 : List Char) (h1 : NoBS s1) (h2 : NoBS s2) :
    ∀ r t1 t2 : List Char, s1 = t1 ++ r → s2 = t2 ++ r →
      OppPhase (scanL cleanSt t1) (scanL cleanSt t2) →
      OppPhase (scanL cleanSt s1) (scanL cleanSt s2) := by
  intro r
  induction r with
  | nil =>
      intro t1 t2 e1 e2 h
      rw [List.append_nil] at e1 e2
      subst e1
      subst e2
      exact h
  | cons ch r ih =>
      intro t1 t2 e1 e2 hOpp
      refine ih (t1 ++ [ch]) (t2 ++ [ch]) (by rw [e1]; simp) (by rw [e2]; simp) ?_
      have g1 : scanL cleanSt (t1 ++ [ch]) = scanStep (scanL cleanSt t1) ch := by
        rw [scanL_append]
        rfl
      have g2 : scanL cleanSt (t2 ++ [ch]) = scanStep (scanL cleanSt t2) ch := by
        rw [scanL_append]
        rfl
      rw [g1, g2]
      rcases hOpp with ⟨ha, hae, hb⟩ | ⟨ha, hb, hbe⟩
      · have hch : ch ≠ '\\' := h2 t2 ch r e2 0 hb
        by_cases hq : ch = '"'
        · right
          subst hq
          rw [scanStep_instr_quote _ ha hae, scanStep_out_quote _ hb]
          exact ⟨rfl, rfl, rfl⟩
        · left
          rw [scanStep_instr_other _ ch ha hae hch hq]
          exact ⟨rfl, rfl, (scanStep_out_other _ ch hb hq).1⟩
      · have hch : ch ≠ '\\' := h1 t1 ch r e1 0 ha
        by_cases hq : ch = '"'
        · left
          subst hq
          rw [scanStep_out_quote _ ha, scanStep_instr_quote _ hb hbe]
          exact ⟨rfl, rfl, rfl⟩
        · right
          rw [scanStep_instr_other _ ch hb hbe hch hq]
          exact ⟨(scanStep_out_other _ ch ha hq).1, rfl, rfl⟩

/-- No token whose proper split points all sit strictly deeper than the start can
end, after a colon, in another non-empty token: the two scans would have to agree
on a clean final state from incompatible phases or depths. -/
theorem no_colon_suffix {s1 s2 : List Char} (h1 : STok s1) (h2 : STok s2)
    (hpos : ∀ t r, s1 = t ++ r → t ≠ [] → r ≠ [] →
      ∀ d : Int, d + 1 ≤ (scanL ⟨false, false, d⟩ t).depth)
    (hne : s2 ≠ []) (u : List Char) : s1 ≠ u ++ ':' :: s2 := by
  intro heq
  have hw : s1 = (u ++ [':']) ++ s2 := by
    rw [heq]
    simp
  have hwne : u ++ [':'] ≠ [] := by simp
  have hs1 : scanL cleanSt s1 = cleanSt := h1.bal cleanSt rfl rfl
  cases hin : (scanL cleanSt (u ++ [':'])).inStr with
  | false =>
      have hesc : (scanL cleanSt (u ++ [':'])).esc = false :=
        scanL_outside_esc (u ++ [':']) 0 hin
      have hdep : (0 : Int) + 1 ≤ (scanL cleanSt (u ++ [':'])).depth :=
        hpos (u ++ [':']) s2 hw hwne hne 0
      have hbal2 : scanL (scanL cleanSt (u ++ [':'])) s2 = scanL cleanSt (u ++ [':']) :=
        h2.bal _ hin hesc
      have h3 : scanL cleanSt s1 = scanL cleanSt (u ++ [':']) := by
        rw [hw, scanL_append, hbal2]
      have h4 : cleanSt = scanL cleanSt (u ++ [':']) := hs1.symm.trans h3
      rw [← h4] at hdep
      exact absurd hdep (by decide)
  | true =>
      have hesc : (scanL cleanSt (u ++ [':'])).esc = false := by
        have e : scanL cleanSt (u ++ [':']) = scanStep (scanL cleanSt u) ':' := by
          rw [scanL_append]
          rfl
        rw [e]
        exact scanStep_esc_of_ne _ ':' (by decide)
      have hopp0 : OppPhase (scanL cleanSt (u ++ [':'])) (scanL cleanSt []) :=
        Or.inl ⟨hin, hesc, rfl⟩
      have hwalk := opp_walk s1 s2 h1.nobs h2.nobs s2 (u ++ [':']) [] hw (by simp) hopp0
      rw [hs1, h2.bal cleanSt rfl rfl] at hwalk
      rcases hwalk with ⟨ha, _, _⟩ | ⟨_, hb, _⟩
      · exact absurd ha (by decide)
      · exact absurd hb (by decide)

/-! ### Cache-key injectivity across logical names -/

/-- The serialization of an argument array unfolds to its bracketed body. -/
theorem strV_arr_eq (a : JsonList) : strV (.jarr a) = '[' :: strL a ++ [']'] := rfl

/-- The serialization of a props object unfolds to its braced body. -/
theorem strV_obj_eq (fs : JsonFields) : strV (.jobj fs) = obrace :: strF fs ++ [cbrace] := rfl

/-- Proper split points of a serialized argument array sit strictly deeper. -/
theorem jarr_pos (a : JsonList) : ∀ t r, strV (.jarr a) = t ++ r → t ≠ [] → r ≠ [] →
    ∀ d : Int, d + 1 ≤ (scanL ⟨false, false, d⟩ t).depth := by
  intro t r heq
  rw [strV_arr_eq] at heq
  exact @wrap_pos (strL a) '[' ']' (by decide) (by decide) (tokL a) t r heq

/-- Proper split points of a serialized props object sit strictly deeper. -/
theorem jobj_pos (fs : JsonFields) : ∀ t r, strV (.jobj fs) = t ++ r → t ≠ [] → r ≠ [] →
    ∀ d : Int, d + 1 ≤ (scanL ⟨false, false, d⟩ t).depth := by
  intro t r heq
  rw [strV_obj_eq] at heq
  exact @wrap_pos (strF fs) obrace cbrace (by decide) (by decide) (tokF fs) t r heq

/-- A serialized argument array is never another one preceded by a name tail and
a colon. -/
theorem jarr_no_colon_suffix (a1 a2 : JsonList) (u : List Char) :
    strV (.jarr a1) ≠ u ++ ':' :: strV (.jarr a2) :=
  no_colon_suffix (tokV (.jarr a1)) (tokV (.jarr a2)) (jarr_pos a1)
    (by rw [strV_arr_eq]; simp) u

/-- A serialized props object is never another one preceded by a name tail and
a colon. -/
theorem jobj_no_colon_suffix (f1 f2 : JsonFields) (u : List Char) :
    strV (.jobj f1) ≠ u ++ ':' :: strV (.jobj f2) :=
  no_colon_suffix (tokV (.jobj f1)) (tokV (.jobj f2)) (jobj_pos f1)
    (by rw [strV_obj_eq]; simp) u

/-- Equal name-colon-serialization concatenations force equal names, for
argument arrays. -/
theorem name_colon_inj (n1 n2 : List Char) (a1 a2 : JsonList)
    (heq : n1 ++ ':' :: strV (.jarr a1) = n2 ++ ':' :: strV (.jarr a2)) : n1 = n2 := by
  by_contra hne
  rcases List.append_eq_append_iff.mp heq with ⟨x, hx1, hx2⟩ | ⟨y, hy1, hy2⟩
  · cases x with
    | nil =>
        rw [List.append_nil] at hx1
        exact hne hx1.symm
    | cons xc x2 =>
        have h3 : ':' = xc ∧ strV (.jarr a1) = x2 ++ ':' :: strV (.jarr a2) := by
          have h4 := hx2
          simp only [List.cons_append, List.cons.injEq] at h4
          exact h4
        exact jarr_no_colon_suffix a1 a2 x2 h3.2
  · cases y with
    | nil =>
        rw [List.append_nil] at hy1
        exact hne hy1
    | cons yc y2 =>
        have h3 : ':' = yc ∧ strV (.jarr a2) = y2 ++ ':' :: strV (.jarr a1) := by
          have h4 := hy2
          simp only [List.cons_append, List.cons.injEq] at h4
          exact h4
        exact jarr_no_colon_suffix a2 a1 y2 h3.2

/-- Equal name-colon-serialization concatenations force equal names, for props
objects. -/
theorem name_colon_inj_obj (n1 n2 : List Char) (f1 f2 : JsonFields)
    (heq : n1 ++ ':' :: strV (.jobj f1) = n2 ++ ':' :: strV (.jobj f2)) : n1 = n2 := by
  by_contra hne
  rcases List.append_eq_append_iff.mp heq with ⟨x, hx1, hx2⟩ | ⟨y, hy1, hy2⟩
  · cases x with
    | nil =>
        rw [List.append_nil] at hx1
        exact hne hx1.symm
    | cons xc x2 =>
        have h3 : ':' = xc ∧ strV (.jobj f1) = x2 ++ ':' :: strV (.jobj f2) := by
          have h4 := hx2
          simp only [List.cons_append, List.cons.injEq] at h4
          exact h4
        exact jobj_no_colon_suffix f1 f2 x2 h3.2
  · cases y with
    | nil =>
        rw [List.append_nil] at hy1
        exact hne hy1
    | cons yc y2 =>
        have h3 : ':' = yc ∧ strV (.jobj f2) = y2 ++ ':' :: strV (.jobj f1) := by
          have h4 := hy2
          simp only [List.cons_append, List.cons.injEq] at h4
          exact h4
        exact jobj_no_colon_suffix f2 f1 y2 h3.2

/-- C5: distinct logical names always derive distinct cache keys, for any pair of
argument lists; hence a lookup under a key derived from one name never returns a
value stored under the other name, and the same holds for component cache keys
derived from distinct component names and any props. -/
theorem cacheKeysDistinctAcrossNames {V : Type} (n1 n2 : List Char) (a1 a2 : JsonList)
    (p1 p2 : JsonFields) (hne : n1 ≠ n2) :
    generateCacheKey n1 a1 ≠ generateCacheKey n2 a2 ∧
    (∀ (v : V) (st : List (List Char × V)),
      lookupStore (generateCacheKey n1 a1) (setStore (generateCacheKey n2 a2) v st) =
        lookupStore (generateCacheKey n1 a1) st) ∧
    componentCacheKey n1 p1 ≠ componentCacheKey n2 p2 := by
  have hk : generateCacheKey n1 a1 ≠ generateCacheKey n2 a2 := by
    intro h
    exact hne (name_colon_inj n1 n2 a1 a2 h)
  have hck : componentCacheKey n1 p1 ≠ componentCacheKey n2 p2 := by
    intro h
    have h2 : ("component:".data ++ n1) ++ ':' :: strV (.jobj p1) =
        ("component:".data ++ n2) ++ ':' :: strV (.jobj p2) := by
      simpa [componentCacheKey, List.append_assoc] using h
    have h3 := name_colon_inj_obj _ _ p1 p2 h2
    exact hne (List.append_cancel_left h3)
  exact ⟨hk, fun v st => lookup_set_ne _ _ v st hk, hck⟩

/-- Witness for C5 at two concrete distinct names and empty argument lists. -/
theorem cacheKeysDistinctAcrossNames_w :
    generateCacheKey "a".data .nil ≠ generateCacheKey "b".data .nil :=
  (@cacheKeysDistinctAcrossNames Unit "a".data "b".data .nil .nil .fnil .fnil
    (by decide)).1

end PPR
